import Mathlib

/-!
# Verification of `benchmark.cpp` (hub / hive container benchmark)

A shallow embedding of the timing primitive, the workload generator, the
scenario adapters, the benchmark grid runner and the table writer of
`src/benchmark.cpp`, followed by theorems about them.

Modelling conventions:

* `double` values (erasure rates, per-trial averages) are exact rationals.
* `std::chrono::high_resolution_clock::time_point` is an integer tick count;
  every call of `now()` is an explicit argument of the embedded function.
* the global timer variables `measure_start`, `measure_pause` form an explicit
  state `TimerState` that is passed in and returned.
* the container under test, the random bit generator wrapped by `urbg` and the
  permutation chosen by `std::shuffle` come from libraries outside the file;
  they are parameters of the embedding.
* `std::size_t` values are natural numbers; the values compared with
  `size_limit` are reduced modulo `2 ^ (8 * sizeof(std::size_t))`.
* loops over the erasure rate carry a fuel argument and return `none` when it
  runs out; reading a vector past its end also gives `none`.
* text written to `std::cout` is not part of any result and is left out; the
  file written by `write_table` is the list of its lines.
-/

namespace HubBenchmark

/-! ## Timer (lines 14-53) -/

/-- The two global time points `measure_start` and `measure_pause` (line 14). -/
structure TimerState where
  measure_start : Int
  measure_pause : Int
deriving DecidableEq, Repr

/-- Lines 45-48, `pause_timing()`; `now` is the clock reading taken by the call. -/
def pause_timing (now : Int) (st : TimerState) : TimerState :=
  ⟨st.measure_start, now⟩

/-- Lines 50-53, `resume_timing()`; `now` is the clock reading taken by the call. -/
def resume_timing (now : Int) (st : TimerState) : TimerState :=
  ⟨st.measure_start + (now - st.measure_pause), st.measure_pause⟩

/-- Line 30, the start of a trial: `measure_start = now()`. -/
def start_trial (now : Int) (st : TimerState) : TimerState :=
  ⟨now, st.measure_pause⟩

/-- The elapsed time `t2 - measure_start` that a trial compares with
`min_time_per_trial` (line 35) and divides by `runs` (line 37). -/
def trial_elapsed (t2 : Int) (st : TimerState) : Int :=
  t2 - st.measure_start

/-- The constant `num_trials` (line 21). -/
def num_trials : Nat := 10

/-- Lines 40-42 of `measure`, applied to the array `trials` that the trial loop
of lines 25-38 has filled: the array is sorted in ascending order, the elements
of `[begin + 2, end - 2)` are added up starting from `0.0`, and the sum is
divided by `trials.size() - 4`. -/
def measure (trials : List ℚ) : ℚ :=
  let sorted := trials.insertionSort (· ≤ ·)
  (((sorted.drop 2).take (sorted.length - 2 - 2)).foldl (· + ·) 0) /
    ((trials.length - 4 : Nat) : ℚ)

/-! ## Workload generator (lines 99-153) -/

/-- The operations the benchmark uses on a container type `C` whose iterators
have type `H`: default construction, `insert` (returning the iterator of the
new element), `erase_void` (lines 114-124), `size`, `clear` and
`shrink_to_fit`. -/
structure Container (C H : Type) where
  empty : C
  insert : C → Int → C × H
  erase_void : C → H → C
  size : C → Nat
  clear : C → C
  shrink_to_fit : C → C

/-- The contract of a container (section 3 of the specification): a default
constructed container is empty, `insert` adds exactly one element and returns
an iterator that denotes no earlier element and stays valid until it is
erased, and erasing a valid iterator removes exactly one element and
invalidates no other iterator.  `valid c h` says that `h` denotes an element
of `c`. -/
structure Lawful {C H : Type} (ops : Container C H) (valid : C → H → Prop) : Prop where
  size_empty : ops.size ops.empty = 0
  size_insert : ∀ c k, ops.size (ops.insert c k).1 = ops.size c + 1
  insert_valid : ∀ c k, valid (ops.insert c k).1 (ops.insert c k).2
  insert_fresh : ∀ c k, ¬ valid c (ops.insert c k).2
  insert_keeps : ∀ c k h, valid c h → valid (ops.insert c k).1 h
  size_erase : ∀ c h, valid c h → ops.size (ops.erase_void c h) + 1 = ops.size c
  erase_keeps : ∀ c h h', valid c h → valid c h' → h' ≠ h → valid (ops.erase_void c h) h'

/-- Lines 99-112, `urbg`: a generator state of type `S`, the state of a default
constructed generator, and `operator()`, which returns a 64-bit value and the
next state.  The wrapped `boost::detail::splitmix64` is a library type. -/
structure urbg (S : Type) where
  default_seed : S
  next : S → Nat × S

/-- The conversion `(int)rng()` of lines 137 and 151: the low 32 bits read as
a two's complement number. -/
def to_int (x : Nat) : Int :=
  if x % 2 ^ 32 < 2 ^ 31 then ((x % 2 ^ 32 : Nat) : Int)
  else ((x % 2 ^ 32 : Nat) : Int) - 2 ^ 32

/-- Lines 129-130: `(std::uint64_t)(erasure_rate * (double)(std::uint64_t)(-1))`,
with the conversion to `double` and the product taken exactly.  No theorem
below depends on the value. -/
def erasure_cut (erasure_rate : ℚ) : Nat :=
  Int.toNat ⌊erasure_rate * ((2 ^ 64 - 1 : Nat) : ℚ)⌋ % 2 ^ 64

/-- What one call of `make` does to the container: the keys inserted, in
order, and the insertion positions erased, in order. -/
structure MakeTrace where
  keys : List Int
  erased : List Nat
deriving DecidableEq, Repr

/-- Line 137, `k` remaining iterations of the insertion loop of `make`.  The
state is the container, the generator, the vector `iterators` and the record
of the keys inserted so far. -/
def make_insert {C H S : Type} (ops : Container C H) (rng : urbg S) :
    Nat → C × S × List H × List Int → C × S × List H × List Int
  | 0, st => st
  | k + 1, (c, s, iterators, keys) =>
    let x := (rng.next s).1
    let r := ops.insert c (to_int x)
    make_insert ops rng k (r.1, (rng.next s).2, iterators ++ [r.2], keys ++ [to_int x])

/-- Lines 139-141, the erasure loop of `make` over the shuffled vector; each
iterator carries the position at which it was inserted.  The state is the
container, the generator and the record of the positions erased so far. -/
def make_erase {C H S : Type} (ops : Container C H) (rng : urbg S) (erasure_cut : Nat) :
    List (Nat × H) → C × S × List Nat → C × S × List Nat
  | [], st => st
  | (p, it) :: rest, (c, s, erased) =>
    if (rng.next s).1 < erasure_cut then
      make_erase ops rng erasure_cut rest (ops.erase_void c it, (rng.next s).2, erased ++ [p])
    else
      make_erase ops rng erasure_cut rest (c, (rng.next s).2, erased)

/-- Lines 126-143, `make`, together with the record of what it did.
`shuffle len s` stands for `std::shuffle` on a vector of `len` elements with
the generator in state `s`: it gives the list of source positions in their new
order and the generator state afterwards; the shuffled vector holds, at each
place, the iterator found at that source position. -/
def make_traced {C H S : Type} (ops : Container C H) (rng : urbg S)
    (shuffle : Nat → S → List Nat × S) (n : Nat) (erasure_rate : ℚ) : C × MakeTrace :=
  let cut := erasure_cut erasure_rate
  let st := make_insert ops rng n (ops.empty, rng.default_seed, [], [])
  let iterators := st.2.2.1
  let sh := shuffle iterators.length st.2.1
  let shuffled := sh.1.filterMap (fun p => (iterators[p]?).map (fun it => (p, it)))
  let fin := make_erase ops rng cut shuffled (st.1, sh.2, [])
  (fin.1, ⟨st.2.2.2, fin.2.2⟩)

/-- Lines 126-143, `make<Container>(n, erasure_rate)`. -/
def make {C H S : Type} (ops : Container C H) (rng : urbg S)
    (shuffle : Nat → S → List Nat × S) (n : Nat) (erasure_rate : ℚ) : C :=
  (make_traced ops rng shuffle n erasure_rate).1

/-- Line 151, `while(n--) c.insert((int)rng());` with `k` iterations left. -/
def fill_loop {C H S : Type} (ops : Container C H) (rng : urbg S) : Nat → C × S → C × S
  | 0, st => st
  | k + 1, (c, s) =>
    fill_loop ops rng k ((ops.insert c (to_int (rng.next s).1)).1, (rng.next s).2)

/-- Lines 145-153, `fill(c, n)`. -/
def fill {C H S : Type} (ops : Container C H) (rng : urbg S) (c : C) (n : Nat) : C :=
  if n > ops.size c then (fill_loop ops rng (n - ops.size c) (c, rng.default_seed)).1 else c

/-- The first `k` values a generator returns from state `s`. -/
def draws {S : Type} (rng : urbg S) : Nat → S → List Nat
  | 0, _ => []
  | k + 1, s => (rng.next s).1 :: draws rng k (rng.next s).2

/-- The generator state after `k` calls from state `s`. -/
def advance {S : Type} (rng : urbg S) : Nat → S → S
  | 0, s => s
  | k + 1, s => advance rng k (rng.next s).2

/-- The positions of `ps` whose own draw, taken in order from state `s`, is
below `erasure_cut`. -/
def erase_positions {S : Type} (rng : urbg S) (erasure_cut : Nat) : List Nat → S → List Nat
  | [], _ => []
  | p :: rest, s =>
    if (rng.next s).1 < erasure_cut then
      p :: erase_positions rng erasure_cut rest (rng.next s).2
    else erase_positions rng erasure_cut rest (rng.next s).2

/-- The number of the `n` draws taken after the shuffle that are below
`erasure_cut`. -/
def erased_count {S : Type} (rng : urbg S) (shuffle : Nat → S → List Nat × S) (n : Nat)
    (erasure_cut : Nat) : Nat :=
  ((draws rng n (shuffle n (advance rng n rng.default_seed)).2).filter
    (fun x => x < erasure_cut)).length

/-! ## Scenario adapters (lines 213-261) -/

/-- Lines 213-228, `create<Container>::operator()`: the value returned and the
timer state after the calls of `pause_timing` and `resume_timing`. -/
def create {C H S : Type} (ops : Container C H) (rng : urbg S)
    (shuffle : Nat → S → List Nat × S) (n : Nat) (erasure_rate : ℚ) (t_pause t_resume : Int)
    (timer : TimerState) : Nat × TimerState :=
  let c := make ops rng shuffle n erasure_rate
  let c1 := fill ops rng c n
  let res := ops.size c1 % 2 ^ 32
  let timer1 := pause_timing t_pause timer
  let timer2 := resume_timing t_resume timer1
  (res, timer2)

/-- Lines 230-239, `create_and_destroy<Container>::operator()`. -/
def create_and_destroy {C H S : Type} (ops : Container C H) (rng : urbg S)
    (shuffle : Nat → S → List Nat × S) (n : Nat) (erasure_rate : ℚ) : Nat :=
  let c := make ops rng shuffle n erasure_rate
  let c1 := fill ops rng c n
  ops.size c1 % 2 ^ 32

/-- Lines 258-260, the data members of `prepare<Container>`. -/
structure prepare (C : Type) where
  n : Nat
  erasure_rate : ℚ
  c : C

/-- The default member initialisers of `prepare` (lines 258-260). -/
def prepare.init {C H : Type} (ops : Container C H) : prepare C :=
  ⟨0, 0, ops.empty⟩

/-- Lines 244-256, `prepare<Container>::get_container`: the container
returned, the object afterwards and the timer afterwards. -/
def prepare.get_container {C H S : Type} (ops : Container C H) (rng : urbg S)
    (shuffle : Nat → S → List Nat × S) (n_ : Nat) (erasure_rate_ : ℚ) (t_pause t_resume : Int)
    (self : prepare C) (timer : TimerState) : C × prepare C × TimerState :=
  if n_ ≠ self.n ∨ erasure_rate_ ≠ self.erasure_rate then
    let timer1 := pause_timing t_pause timer
    let c1 := ops.clear self.c
    let _c2 := ops.shrink_to_fit c1
    let c3 := make ops rng shuffle n_ erasure_rate_
    let timer2 := resume_timing t_resume timer1
    (c3, ⟨n_, erasure_rate_, c3⟩, timer2)
  else
    (self.c, self, timer)

/-- One call of `get_container`: its two arguments and the two clock readings
it would take when it rebuilds. -/
structure Request where
  n : Nat
  erasure_rate : ℚ
  t_pause : Int
  t_resume : Int

/-- A sequence of `get_container` calls on one `prepare` object: the containers
returned, in order, and the final object and timer. -/
def get_container_calls {C H S : Type} (ops : Container C H) (rng : urbg S)
    (shuffle : Nat → S → List Nat × S) :
    List Request → prepare C × TimerState → List C × prepare C × TimerState
  | [], st => ([], st)
  | r :: rest, (self, timer) =>
    let out := prepare.get_container ops rng shuffle r.n r.erasure_rate r.t_pause r.t_resume
      self timer
    let tail := get_container_calls ops rng shuffle rest out.2
    (out.1 :: tail.1, tail.2)

/-! ## Benchmark grid runner (lines 155-211) -/

/-- The configuration the runner and the table writer read: the static
variables of lines 155-159, the macro `ELEMENT_SIZE`, and the two
platform-dependent sizes `sizeof(element)` and `sizeof(std::size_t)`. -/
structure Config where
  min_size_exp : Nat
  max_size_exp : Nat
  min_erasure_rate : ℚ
  max_erasure_rate : ℚ
  erase_rate_inc : ℚ
  ELEMENT_SIZE : Nat
  sizeof_element : Nat
  sizeof_size_t : Nat

/-- The values the source gives the static variables (lines 155-159), on a
platform with 64-bit `std::size_t`. -/
def default_config (ELEMENT_SIZE sizeof_element : Nat) : Config :=
  ⟨3, 7, 0, 9 / 10, 1 / 10, ELEMENT_SIZE, sizeof_element, 8⟩

/-- Lines 170-172, `size_limit`. -/
def size_limit (cfg : Config) : Nat :=
  if cfg.sizeof_size_t = 4 then 800 * 1024 * 1024 else 2048 * 1024 * 1024

/-- A value reduced to the range of `std::size_t`. -/
def to_size_t (cfg : Config) (x : Nat) : Nat :=
  x % 2 ^ (8 * cfg.sizeof_size_t)

/-- Lines 161-165, `benchmark_result`. -/
structure benchmark_result where
  title : String
  data : List (List String)
deriving DecidableEq, Repr

/-- The loop header shared by lines 186-188 and 353-355:
`for(double erasure_rate = ...; erasure_rate <= max_erasure_rate;
erasure_rate += erase_rate_inc)`, running `body` on a state. -/
def for_erasure_rates {σ : Type} (cfg : Config) (body : ℚ → σ → Option σ) :
    Nat → ℚ → σ → Option σ
  | 0, erasure_rate, st => if erasure_rate ≤ cfg.max_erasure_rate then none else some st
  | fuel + 1, erasure_rate, st =>
    if erasure_rate ≤ cfg.max_erasure_rate then
      (body erasure_rate st).bind
        (for_erasure_rates cfg body fuel (erasure_rate + cfg.erase_rate_inc))
    else some st

/-- Lines 193-207, the inner loop of `benchmark` for one erasure rate, giving
the row `res.data.back()`.  Line 195 makes `n` the power `10 ^ i`, which is
exact whenever it fits `std::size_t`.  `cell_text erasure_rate n` is the text
that lines 201-203 put into `out` for a measured cell.  In the branch of lines
196-199 `out` receives the placeholder and `continue` goes to the next `i`, so
line 206 is not reached and the row stays as it is. -/
def benchmark_row (cfg : Config) (cell_text : ℚ → Nat → String) (erasure_rate : ℚ) :
    List String :=
  (List.range' cfg.min_size_exp (cfg.max_size_exp + 1 - cfg.min_size_exp)).foldl
    (fun row i =>
      let n := to_size_t cfg (10 ^ i)
      if to_size_t cfg (n * cfg.sizeof_element) > size_limit cfg then
        row
      else
        row ++ [cell_text erasure_rate n])
    []

/-- Lines 167-211, `benchmark(title, fhive, fhub)`; the two candidates and the
timer enter through `cell_text`. -/
def benchmark (cfg : Config) (title : String) (cell_text : ℚ → Nat → String) (fuel : Nat) :
    Option benchmark_result :=
  (for_erasure_rates cfg
      (fun erasure_rate data => some (data ++ [benchmark_row cfg cell_text erasure_rate]))
      fuel cfg.min_erasure_rate []).map
    (fun data => ⟨title, data⟩)

/-- The number of erasure-rate steps stated by the specification: none when
the range is empty, else `floor((max - min) / inc) + 1`. -/
def num_rate_steps (cfg : Config) : Nat :=
  if cfg.min_erasure_rate ≤ cfg.max_erasure_rate then
    ⌊(cfg.max_erasure_rate - cfg.min_erasure_rate) / cfg.erase_rate_inc⌋₊ + 1
  else 0

/-! ## Table writer (lines 300-367) -/

/-- Line 304. -/
def first_column_width : Nat := 15

/-- Line 305. -/
def data_column_width (cfg : Config) : Nat :=
  (cfg.max_size_exp + 1 - cfg.min_size_exp) * 5

/-- Line 307. -/
def table_width (cfg : Config) (num_data_columns : Nat) : Nat :=
  first_column_width + 2 + num_data_columns * (data_column_width cfg + 2) + 1

/-- The string `std::string(n, ch)`. -/
def fill_string (n : Nat) (ch : Char) : String :=
  String.mk (List.replicate n ch)

/-- The text `out << std::setw(w) << s` writes under `std::left`: `s`, padded
on the right with blanks up to `w` characters and never shortened. -/
def setw_left (w : Nat) (s : String) : String :=
  s ++ fill_string (w - s.length) ' '

/-- The texts written one after the other. -/
def concat : List String → String
  | [] => ""
  | s :: rest => s ++ concat rest

/-- Lines 311-312. -/
def data_horizontal_line (cfg : Config) (num_data_columns : Nat) : String :=
  fill_string (first_column_width + 2) ' ' ++
    fill_string (table_width cfg num_data_columns - first_column_width - 2) '-'

/-- Line 313. -/
def table_horizontal_line (cfg : Config) (num_data_columns : Nat) : String :=
  fill_string (table_width cfg num_data_columns) '-'

/-- Lines 317-350 of `write_table`: the nine lines above the data rows. -/
def write_table_head (cfg : Config) (t : List benchmark_result) : List String :=
  let num_data_columns := t.length
  [ data_horizontal_line cfg num_data_columns,
    "  " ++ setw_left first_column_width " " ++
      setw_left (table_width cfg num_data_columns - first_column_width - 3)
        ("| sizeof(element): " ++ toString cfg.ELEMENT_SIZE) ++ "|",
    data_horizontal_line cfg num_data_columns,
    "  " ++ setw_left first_column_width " " ++
      concat (t.map (fun res => "| " ++ setw_left (data_column_width cfg) res.title)) ++ "|",
    data_horizontal_line cfg num_data_columns,
    "  " ++ setw_left first_column_width " " ++
      concat (List.replicate num_data_columns
        ("| " ++ setw_left (data_column_width cfg) "container size")) ++ "|",
    table_horizontal_line cfg num_data_columns,
    "| " ++ setw_left first_column_width "erase rate" ++
      concat (List.replicate num_data_columns
        ("| " ++ concat ((List.range' cfg.min_size_exp
            (cfg.max_size_exp + 1 - cfg.min_size_exp)).map
          (fun j => "1.E" ++ toString j ++ " ")))) ++ "|",
    table_horizontal_line cfg num_data_columns ]

/-- Lines 357-362: the blocks of one data row, `res.data[row]` for every
result of the table; `none` when a result has no such row. -/
def write_table_cells (t : List benchmark_result) (row : Nat) : Option String :=
  match t with
  | [] => some ""
  | res :: rest =>
    match res.data[row]? with
    | none => none
    | some cells =>
      (write_table_cells rest row).map
        (fun tail => "| " ++ concat (cells.map (fun x => x ++ " ")) ++ tail)

/-- Lines 356-363, the body of the row loop; the state is `row` and the lines
written so far.  `show_rate` is the text `out << erasure_rate` produces. -/
def write_table_row (show_rate : ℚ → String) (t : List benchmark_result)
    (erasure_rate : ℚ) (st : Nat × List String) : Option (Nat × List String) :=
  (write_table_cells t st.1).map (fun cells =>
    (st.1 + 1,
     st.2 ++ ["| " ++ setw_left first_column_width (show_rate erasure_rate) ++ cells ++ "|"]))

/-- Lines 302-367, `write_table`: the lines written to the file. -/
def write_table (cfg : Config) (show_rate : ℚ → String) (t : List benchmark_result)
    (fuel : Nat) : Option (List String) :=
  (for_erasure_rates cfg (write_table_row show_rate t) fuel cfg.min_erasure_rate
      (0, write_table_head cfg t)).map
    (fun st => st.2 ++ [table_horizontal_line cfg t.length])

/-- The column of the separator that opens block `k` of a line; for
`k = num_data_columns` it is the column of the separator that closes the
line. -/
def separator_column (cfg : Config) (k : Nat) : Nat :=
  first_column_width + 2 + k * (data_column_width cfg + 2)

/-- A line has the character `|` in the separator column of every block and in
the closing column. -/
def separators_aligned (cfg : Config) (num_data_columns : Nat) (line : String) : Prop :=
  ∀ k, k ≤ num_data_columns → line.data[separator_column cfg k]? = some '|'

/-- The places, counted from zero, of the lines of the file that hold one
block per result: the title line, the `container size` line, the
size-exponent header line, and the data rows. -/
def is_block_line (cfg : Config) (i : Nat) : Prop :=
  i = 3 ∨ i = 5 ∨ i = 7 ∨ (9 ≤ i ∧ i < 9 + num_rate_steps cfg)

/-! ## Concrete instances on which the definitions are evaluated -/

/-- A container that keeps every element in a slot of its own and never
reuses a slot: an iterator is the slot number, erasing empties the slot. -/
def slots : Container (List (Option Int)) Nat where
  empty := []
  insert c k := (c ++ [some k], c.length)
  erase_void c h := c.set h none
  size c := c.countP Option.isSome
  clear _ := []
  shrink_to_fit c := c

/-- An iterator of `slots` is valid when its slot holds an element. -/
def slot_valid (xs : List (Option Int)) (h : Nat) : Prop :=
  ∃ k, xs[h]? = some (some k)

/-- A 64-bit linear congruential generator. -/
def lcg : urbg Nat where
  default_seed := 0
  next s := ((6364136223846793005 * s + 1442695040888963407) % 2 ^ 64,
             (6364136223846793005 * s + 1442695040888963407) % 2 ^ 64)

/-- A shuffle that reverses the vector and takes one value from the
generator. -/
def reverse_shuffle (n : Nat) (s : Nat) : List Nat × Nat :=
  ((List.range n).reverse, (lcg.next s).2)

/-- The text of a rate of the default grid: `0` for zero and `0.d` for `d`
tenths. -/
def show_tenths (r : ℚ) : String :=
  if ⌊r * 10⌋.toNat % 10 = 0 then "0" else "0." ++ toString (⌊r * 10⌋.toNat % 10)

/-- A grid of ten rows of five measured cells. -/
def sample_grid : List (List String) :=
  List.replicate 10 (List.replicate 5 "1.00")

/-- The five results of `main` (lines 384-398) with their titles. -/
def sample_table : List benchmark_result :=
  [⟨"insert, erase, insert", sample_grid⟩, ⟨"ins, erase, ins, destroy", sample_grid⟩,
   ⟨"for_each", sample_grid⟩, ⟨"visit_all", sample_grid⟩, ⟨"sort", sample_grid⟩]

/-! ## Lemmas on the timer -/

theorem foldl_add_eq_sum (l : List ℚ) : l.foldl (· + ·) 0 = l.sum := by
  rw [List.sum_eq_foldl]

theorem measure_eq (trials : List ℚ) (hlen : trials.length = num_trials) :
    measure trials = (((trials.insertionSort (· ≤ ·)).drop 2).take 6).sum / 6 := by
  simp only [measure, foldl_add_eq_sum, List.length_insertionSort, hlen, num_trials]
  norm_num

theorem sorted_unique (s trials : List ℚ) (hs : s.Sorted (· ≤ ·)) (hp : s.Perm trials) :
    trials.insertionSort (· ≤ ·) = s :=
  List.eq_of_perm_of_sorted ((List.perm_insertionSort _ _).trans hp.symm)
    (List.sorted_insertionSort _ _) hs

theorem sorted_blocks (lows mid highs : List ℚ) (hm : mid ≠ [])
    (h1 : ∀ a ∈ lows, ∀ b ∈ mid, a ≤ b) (h2 : ∀ b ∈ mid, ∀ c ∈ highs, b ≤ c) :
    (lows.insertionSort (· ≤ ·) ++
      (mid.insertionSort (· ≤ ·) ++ highs.insertionSort (· ≤ ·))).Sorted (· ≤ ·) := by
  obtain ⟨m, hmem⟩ := List.exists_mem_of_ne_nil mid hm
  simp only [List.Sorted, List.pairwise_append]
  refine ⟨List.sorted_insertionSort _ _,
    ⟨List.sorted_insertionSort _ _, List.sorted_insertionSort _ _, ?_⟩, ?_⟩
  · intro b hb c hc
    exact h2 b ((List.perm_insertionSort _ _).mem_iff.1 hb) c
      ((List.perm_insertionSort _ _).mem_iff.1 hc)
  · intro a ha b hb
    have ha1 := (List.perm_insertionSort _ _).mem_iff.1 ha
    rcases List.mem_append.1 hb with hb | hb
    · exact h1 a ha1 b ((List.perm_insertionSort _ _).mem_iff.1 hb)
    · exact le_trans (h1 a ha1 m hmem)
        (h2 m hmem b ((List.perm_insertionSort _ _).mem_iff.1 hb))

theorem measure_blocks (trials lows mid highs : List ℚ)
    (hl : lows.length = 2) (hm : mid.length = 6) (hh : highs.length = 2)
    (hp : trials.Perm (lows ++ mid ++ highs))
    (h1 : ∀ a ∈ lows, ∀ b ∈ mid, a ≤ b) (h2 : ∀ b ∈ mid, ∀ c ∈ highs, b ≤ c) :
    measure trials = mid.sum / 6 := by
  have hlen : trials.length = num_trials := by
    rw [hp.length_eq]; simp [hl, hm, hh, num_trials]
  have hne : mid ≠ [] := by
    intro h; simp [h] at hm
  have hs := sorted_blocks lows mid highs hne h1 h2
  have hperm : (lows.insertionSort (· ≤ ·) ++
      (mid.insertionSort (· ≤ ·) ++ highs.insertionSort (· ≤ ·))).Perm trials := by
    refine List.Perm.trans ?_ hp.symm
    rw [List.append_assoc]
    exact (List.perm_insertionSort _ _).append
      ((List.perm_insertionSort _ _).append (List.perm_insertionSort _ _))
  rw [measure_eq trials hlen, sorted_unique _ _ hs hperm]
  have e1 : (lows.insertionSort (· ≤ ·)).length = 2 := by rw [List.length_insertionSort, hl]
  have e2 : (mid.insertionSort (· ≤ ·)).length = 6 := by rw [List.length_insertionSort, hm]
  rw [List.drop_append_of_le_length (by omega), List.drop_of_length_le (by omega),
    List.nil_append, List.take_append_of_le_length (by omega),
    List.take_of_length_le (by omega)]
  rw [(List.perm_insertionSort (· ≤ ·) mid).sum_eq]

/-! ## Lemmas on the workload generator -/

section Workload
variable {C H S : Type} (ops : Container C H) (rng : urbg S)

theorem make_insert_spec (k : Nat) (c : C) (s : S) (its : List H) (keys : List Int) :
    (make_insert ops rng k (c, s, its, keys)).2.1 = advance rng k s ∧
    (make_insert ops rng k (c, s, its, keys)).2.2.1.length = its.length + k ∧
    (make_insert ops rng k (c, s, its, keys)).2.2.2 = keys ++ (draws rng k s).map to_int := by
  induction k generalizing c s its keys with
  | zero => simp [make_insert, advance, draws]
  | succ k ih =>
    simp only [make_insert, advance, draws]
    obtain ⟨h1, h2, h3⟩ := ih (ops.insert c (to_int (rng.next s).1)).1 (rng.next s).2
      (its ++ [(ops.insert c (to_int (rng.next s).1)).2]) (keys ++ [to_int (rng.next s).1])
    refine ⟨h1, ?_, ?_⟩
    · rw [h2]; simp; omega
    · rw [h3]; simp

theorem make_insert_inv (valid : C → H → Prop) (hlaw : Lawful ops valid)
    (k : Nat) (c : C) (s : S) (its : List H) (keys : List Int)
    (hv : ∀ h ∈ its, valid c h) (hnd : its.Nodup) :
    ops.size (make_insert ops rng k (c, s, its, keys)).1 = ops.size c + k ∧
    (∀ h ∈ (make_insert ops rng k (c, s, its, keys)).2.2.1,
      valid (make_insert ops rng k (c, s, its, keys)).1 h) ∧
    (make_insert ops rng k (c, s, its, keys)).2.2.1.Nodup := by
  induction k generalizing c s its keys with
  | zero => exact ⟨rfl, hv, hnd⟩
  | succ k ih =>
    simp only [make_insert]
    have hv1 : ∀ h ∈ its ++ [(ops.insert c (to_int (rng.next s).1)).2],
        valid (ops.insert c (to_int (rng.next s).1)).1 h := by
      intro h hh
      rcases List.mem_append.1 hh with hh | hh
      · exact hlaw.insert_keeps _ _ _ (hv h hh)
      · rw [List.mem_singleton.1 hh]; exact hlaw.insert_valid _ _
    have hnd1 : (its ++ [(ops.insert c (to_int (rng.next s).1)).2]).Nodup := by
      rw [List.nodup_append]
      refine ⟨hnd, List.nodup_singleton _, ?_⟩
      intro a ha hb
      rw [List.mem_singleton.1 hb] at ha
      exact hlaw.insert_fresh _ _ (hv _ ha)
    obtain ⟨h1, h2, h3⟩ := ih (ops.insert c (to_int (rng.next s).1)).1 (rng.next s).2
      (its ++ [(ops.insert c (to_int (rng.next s).1)).2]) (keys ++ [to_int (rng.next s).1])
      hv1 hnd1
    refine ⟨?_, h2, h3⟩
    rw [h1, hlaw.size_insert]; omega

theorem make_erase_spec (cut : Nat) (l : List (Nat × H)) (c : C) (s : S) (erased : List Nat) :
    (make_erase ops rng cut l (c, s, erased)).2.2 =
      erased ++ erase_positions rng cut (l.map Prod.fst) s := by
  induction l generalizing c s erased with
  | nil => simp [make_erase, erase_positions]
  | cons x rest ih =>
    obtain ⟨p, it⟩ := x
    simp only [make_erase, List.map_cons, erase_positions]
    split
    · rw [ih]; simp
    · rw [ih]

theorem make_erase_inv (valid : C → H → Prop) (hlaw : Lawful ops valid) (cut : Nat)
    (l : List (Nat × H)) (c : C) (s : S) (erased : List Nat)
    (hv : ∀ x ∈ l, valid c x.2) (hnd : (l.map Prod.snd).Nodup) :
    ops.size (make_erase ops rng cut l (c, s, erased)).1 +
      ((draws rng l.length s).filter (fun x => x < cut)).length = ops.size c := by
  induction l generalizing c s erased with
  | nil => simp [make_erase, draws]
  | cons x rest ih =>
    obtain ⟨p, it⟩ := x
    simp only [List.map_cons, List.nodup_cons] at hnd
    simp only [make_erase, List.length_cons, draws]
    have hit : valid c it := hv (p, it) (List.mem_cons_self _ _)
    by_cases hlt : (rng.next s).1 < cut
    · simp only [hlt, if_true, List.filter_cons, decide_True, List.length_cons]
      have hv1 : ∀ x ∈ rest, valid (ops.erase_void c it) x.2 := by
        intro x hx
        refine hlaw.erase_keeps c it x.2 hit (hv x (List.mem_cons_of_mem _ hx)) ?_
        intro heq
        exact hnd.1 (heq ▸ List.mem_map_of_mem Prod.snd hx)
      have := ih (ops.erase_void c it) (rng.next s).2 (erased ++ [p]) hv1 hnd.2
      have h2 := hlaw.size_erase c it hit
      omega
    · simp only [hlt, if_false, List.filter_cons, decide_False]
      exact ih c (rng.next s).2 erased (fun x hx => hv x (List.mem_cons_of_mem _ hx)) hnd.2

theorem erase_positions_sublist (cut : Nat) (ps : List Nat) (s : S) :
    (erase_positions rng cut ps s).Sublist ps := by
  induction ps generalizing s with
  | nil => simp [erase_positions]
  | cons p rest ih =>
    simp only [erase_positions]
    split
    · exact (ih _).cons₂ p
    · exact (ih _).cons p

theorem erase_positions_length (cut : Nat) (ps : List Nat) (s : S) :
    (erase_positions rng cut ps s).length =
      ((draws rng ps.length s).filter (fun x => x < cut)).length := by
  induction ps generalizing s with
  | nil => simp [erase_positions, draws]
  | cons p rest ih =>
    simp only [erase_positions, List.length_cons, draws]
    by_cases hlt : (rng.next s).1 < cut
    · simp [hlt, List.filter_cons, ih]
    · simp [hlt, List.filter_cons, ih]

theorem tagged_fst (its : List H) (perm : List Nat) :
    (perm.filterMap (fun p => (its[p]?).map (fun it => (p, it)))).map Prod.fst =
      perm.filter (fun p => p < its.length) := by
  induction perm with
  | nil => rfl
  | cons p rest ih =>
    by_cases hp : p < its.length
    · simp [List.filterMap_cons, List.filter_cons, hp, List.getElem?_eq_getElem, ih]
    · have : its[p]? = none := List.getElem?_eq_none (by omega)
      simp [List.filterMap_cons, List.filter_cons, hp, this, ih]

theorem tagged_snd (its : List H) (perm : List Nat) :
    (perm.filterMap (fun p => (its[p]?).map (fun it => (p, it)))).map Prod.snd =
      perm.filterMap (fun p => its[p]?) := by
  induction perm with
  | nil => rfl
  | cons p rest ih =>
    by_cases hp : p < its.length
    · simp [List.filterMap_cons, hp, List.getElem?_eq_getElem, ih]
    · have : its[p]? = none := List.getElem?_eq_none (by omega)
      simp [List.filterMap_cons, this, ih]

theorem range_filterMap_getElem? (its : List H) :
    (List.range its.length).filterMap (fun p => its[p]?) = its := by
  induction its using List.reverseRecOn with
  | nil => rfl
  | append_singleton l a ih =>
    rw [List.length_append, List.length_singleton, List.range_succ, List.filterMap_append]
    have h1 : (List.range l.length).filterMap (fun p => (l ++ [a])[p]?) =
        (List.range l.length).filterMap (fun p => l[p]?) := by
      apply List.filterMap_congr
      intro p hp
      rw [List.getElem?_append_left (List.mem_range.1 hp)]
    rw [h1, ih]
    simp

theorem shuffled_perm (its : List H) (perm : List Nat)
    (hperm : perm.Perm (List.range its.length)) :
    (perm.filterMap (fun p => its[p]?)).Perm its := by
  have := hperm.filterMap (fun p => its[p]?)
  rwa [range_filterMap_getElem?] at this

theorem filter_lt_of_perm_range (perm : List Nat) (n : Nat) (hperm : perm.Perm (List.range n)) :
    perm.filter (fun p => p < n) = perm := by
  rw [List.filter_eq_self]
  intro p hp
  simpa using List.mem_range.1 (hperm.mem_iff.1 hp)

theorem make_size_eq (valid : C → H → Prop) (hlaw : Lawful ops valid)
    (shuffle : Nat → S → List Nat × S) (hsh : ∀ n s, (shuffle n s).1.Perm (List.range n))
    (n : Nat) (erasure_rate : ℚ) :
    ops.size (make ops rng shuffle n erasure_rate) +
      erased_count rng shuffle n (erasure_cut erasure_rate) = n := by
  obtain ⟨hs, hl, -⟩ := make_insert_spec ops rng n ops.empty rng.default_seed [] []
  obtain ⟨hsz, hval, hnd⟩ := make_insert_inv ops rng valid hlaw n ops.empty rng.default_seed
    [] [] (by simp) List.nodup_nil
  simp only [List.length_nil, Nat.zero_add] at hl
  rw [hlaw.size_empty, Nat.zero_add] at hsz
  simp only [make, make_traced, erased_count]
  rw [hl, hs]
  set st := make_insert ops rng n (ops.empty, rng.default_seed, [], []) with hst
  set sh := shuffle n (advance rng n rng.default_seed) with hsh1
  set l := sh.1.filterMap (fun p => (st.2.2.1[p]?).map (fun it => (p, it))) with hl1
  have hperm : (l.map Prod.snd).Perm st.2.2.1 := by
    rw [hl1, tagged_snd]
    exact shuffled_perm _ _ (by rw [hl]; exact hsh _ _)
  have hlen : l.length = n := by
    have := hperm.length_eq
    rw [List.length_map, hl] at this
    exact this
  have hv : ∀ x ∈ l, valid st.1 x.2 := by
    intro x hx
    exact hval _ (hperm.mem_iff.1 (List.mem_map_of_mem Prod.snd hx))
  have := make_erase_inv ops rng valid hlaw (erasure_cut erasure_rate) l st.1 sh.2 []
    hv (hperm.nodup_iff.2 hnd)
  rw [hlen, hsz] at this
  exact this

theorem make_traced_eq (shuffle : Nat → S → List Nat × S) (n : Nat) (erasure_rate : ℚ) :
    (make_traced ops rng shuffle n erasure_rate).2 =
      ⟨(draws rng n rng.default_seed).map to_int,
       erase_positions rng (erasure_cut erasure_rate)
        ((shuffle n (advance rng n rng.default_seed)).1.filter (fun p => p < n))
        (shuffle n (advance rng n rng.default_seed)).2⟩ := by
  obtain ⟨hs, hl, hk⟩ := make_insert_spec ops rng n ops.empty rng.default_seed [] []
  simp only [List.length_nil, Nat.zero_add, List.nil_append] at hl hk
  simp only [make_traced]
  rw [make_erase_spec, tagged_fst, hl, hs, hk]
  simp

theorem fill_loop_size (hins : ∀ c k, ops.size (ops.insert c k).1 = ops.size c + 1)
    (k : Nat) (c : C) (s : S) :
    ops.size (fill_loop ops rng k (c, s)).1 = ops.size c + k := by
  induction k generalizing c s with
  | zero => rfl
  | succ k ih =>
    simp only [fill_loop]
    rw [ih, hins]; omega

theorem fill_size (hins : ∀ c k, ops.size (ops.insert c k).1 = ops.size c + 1)
    (c : C) (n : Nat) :
    ops.size (fill ops rng c n) = max (ops.size c) n := by
  unfold fill
  split
  · rw [fill_loop_size ops rng hins]; omega
  · omega

theorem make_zero (shuffle : Nat → S → List Nat × S) (erasure_rate : ℚ) :
    make ops rng shuffle 0 erasure_rate = ops.empty := by
  have hnone : ∀ l : List Nat,
      l.filterMap (fun p => (([] : List H)[p]?).map (fun it => (p, it))) = [] := by
    intro l
    induction l with
    | nil => rfl
    | cons a rest ih => simp [List.filterMap_cons]
  simp only [make, make_traced, make_insert, hnone, make_erase]

end Workload

theorem slots_lawful : Lawful slots slot_valid where
  size_empty := rfl
  size_insert := by intro c k; simp [slots, List.countP_append]
  insert_valid := by intro c k; exact ⟨k, by simp [slots]⟩
  insert_fresh := by
    intro c k ⟨x, hx⟩
    simp [slots] at hx
  insert_keeps := by
    intro c k h ⟨x, hx⟩
    refine ⟨x, ?_⟩
    have hlt : h < c.length := by
      by_contra hge
      rw [List.getElem?_eq_none (by omega)] at hx
      cases hx
    simp only [slots]
    rw [List.getElem?_append_left hlt]; exact hx
  size_erase := by
    intro c h ⟨x, hx⟩
    simp only [slots]
    induction c generalizing h with
    | nil => simp at hx
    | cons a rest ih =>
      cases h with
      | zero =>
        simp at hx
        subst hx
        simp [List.countP_cons]
      | succ h =>
        simp at hx
        simp only [List.set_cons_succ, List.countP_cons]
        have := ih h hx
        omega
  erase_keeps := by
    intro c h h1 _ ⟨x, hx⟩ hne
    refine ⟨x, ?_⟩
    simp only [slots]
    rw [List.getElem?_set_ne (Ne.symm hne)]; exact hx

theorem reverse_shuffle_perm (n s : Nat) : (reverse_shuffle n s).1.Perm (List.range n) :=
  List.reverse_perm _

/-! ## Lemmas on the erasure-rate loop and the grid runner -/

theorem rate_le_iff (cfg : Config) (hinc : 0 < cfg.erase_rate_inc) (j : Nat) :
    cfg.min_erasure_rate + j * cfg.erase_rate_inc ≤ cfg.max_erasure_rate ↔ j < num_rate_steps cfg := by
  unfold num_rate_steps
  split
  · rename_i hle
    rw [Nat.lt_succ_iff, Nat.le_floor_iff (div_nonneg (sub_nonneg.2 hle) hinc.le), le_div_iff₀ hinc]
    constructor <;> intro h <;> linarith
  · rename_i hlt
    have : (0 : ℚ) ≤ j * cfg.erase_rate_inc := mul_nonneg (Nat.cast_nonneg j) hinc.le
    constructor
    · intro h; exact absurd (by linarith : cfg.min_erasure_rate ≤ cfg.max_erasure_rate) hlt
    · intro h; omega

theorem for_erasure_rates_inv {σ : Type} (cfg : Config) (hinc : 0 < cfg.erase_rate_inc)
    (body : ℚ → σ → Option σ) (I : Nat → σ → Prop)
    (hstep : ∀ j st, j < num_rate_steps cfg → I j st →
      ∃ st2, body (cfg.min_erasure_rate + j * cfg.erase_rate_inc) st = some st2 ∧ I (j + 1) st2)
    (fuel j : Nat) (st : σ) (hj : j ≤ num_rate_steps cfg) (hfuel : num_rate_steps cfg - j ≤ fuel)
    (hI : I j st) :
    ∃ st2, for_erasure_rates cfg body fuel (cfg.min_erasure_rate + j * cfg.erase_rate_inc) st = some st2
      ∧ I (num_rate_steps cfg) st2 := by
  induction fuel generalizing j st with
  | zero =>
    have hjeq : j = num_rate_steps cfg := by omega
    have hnot : ¬ cfg.min_erasure_rate + j * cfg.erase_rate_inc ≤ cfg.max_erasure_rate := by
      rw [rate_le_iff cfg hinc]; omega
    refine ⟨st, ?_, hjeq ▸ hI⟩
    simp only [for_erasure_rates, hnot, if_false]
  | succ fuel ih =>
    by_cases hlt : j < num_rate_steps cfg
    · have hle : cfg.min_erasure_rate + j * cfg.erase_rate_inc ≤ cfg.max_erasure_rate :=
        (rate_le_iff cfg hinc j).2 hlt
      obtain ⟨st1, hb, hI1⟩ := hstep j st hlt hI
      obtain ⟨st2, hr, hI2⟩ := ih (j + 1) st1 (by omega) (by omega) hI1
      refine ⟨st2, ?_, hI2⟩
      have hrate : cfg.min_erasure_rate + ((j + 1 : Nat) : ℚ) * cfg.erase_rate_inc =
          cfg.min_erasure_rate + j * cfg.erase_rate_inc + cfg.erase_rate_inc := by
        push_cast
        ring
      rw [hrate] at hr
      simp only [for_erasure_rates, hle, if_true, hb, Option.some_bind, hr]
    · have hjeq : j = num_rate_steps cfg := by omega
      have hnot : ¬ cfg.min_erasure_rate + j * cfg.erase_rate_inc ≤ cfg.max_erasure_rate := by
        rw [rate_le_iff cfg hinc]; omega
      refine ⟨st, ?_, hjeq ▸ hI⟩
      simp only [for_erasure_rates, hnot, if_false]



theorem benchmark_row_length (cfg : Config) (cell_text : ℚ → Nat → String) (erasure_rate : ℚ) :
    (benchmark_row cfg cell_text erasure_rate).length =
      ((List.range' cfg.min_size_exp (cfg.max_size_exp + 1 - cfg.min_size_exp)).filter
        (fun i => ¬ to_size_t cfg (to_size_t cfg (10 ^ i) * cfg.sizeof_element) >
          size_limit cfg)).length := by
  unfold benchmark_row
  generalize List.range' cfg.min_size_exp (cfg.max_size_exp + 1 - cfg.min_size_exp) = l
  have key : ∀ (l : List Nat) (row : List String),
      (l.foldl (fun row i =>
          if to_size_t cfg (to_size_t cfg (10 ^ i) * cfg.sizeof_element) > size_limit cfg then
            row
          else row ++ [cell_text erasure_rate (to_size_t cfg (10 ^ i))]) row).length =
        row.length + (l.filter (fun i =>
          ¬ to_size_t cfg (to_size_t cfg (10 ^ i) * cfg.sizeof_element) >
            size_limit cfg)).length := by
    intro l
    induction l with
    | nil => intro row; simp
    | cons i rest ih =>
      intro row
      rw [List.foldl_cons, ih]
      by_cases hskip : to_size_t cfg (to_size_t cfg (10 ^ i) * cfg.sizeof_element) >
          size_limit cfg
      · simp [hskip, List.filter_cons]
      · have hle := Nat.not_lt.1 hskip
        simp [hskip, hle, List.filter_cons]; omega
  simpa using key l []

theorem benchmark_grid (cfg : Config) (hinc : 0 < cfg.erase_rate_inc) (title : String)
    (cell_text : ℚ → Nat → String) (fuel : Nat) (hfuel : num_rate_steps cfg ≤ fuel) :
    ∃ res, benchmark cfg title cell_text fuel = some res ∧ res.title = title ∧
      res.data.length = num_rate_steps cfg ∧
      ∀ row ∈ res.data, row.length =
        ((List.range' cfg.min_size_exp (cfg.max_size_exp + 1 - cfg.min_size_exp)).filter
          (fun i => ¬ to_size_t cfg (to_size_t cfg (10 ^ i) * cfg.sizeof_element) >
            size_limit cfg)).length := by
  obtain ⟨data, hd, hI⟩ := for_erasure_rates_inv cfg hinc
    (fun erasure_rate data => some (data ++ [benchmark_row cfg cell_text erasure_rate]))
    (fun j data => data.length = j ∧ ∀ row ∈ data, row.length =
      ((List.range' cfg.min_size_exp (cfg.max_size_exp + 1 - cfg.min_size_exp)).filter
        (fun i => ¬ to_size_t cfg (to_size_t cfg (10 ^ i) * cfg.sizeof_element) >
          size_limit cfg)).length)
    (by
      intro j data _ ⟨h1, h2⟩
      refine ⟨_, rfl, by simp [h1], ?_⟩
      intro row hrow
      rcases List.mem_append.1 hrow with hrow | hrow
      · exact h2 row hrow
      · rw [List.mem_singleton.1 hrow]; exact benchmark_row_length cfg cell_text _)
    fuel 0 [] (Nat.zero_le _) (by omega) ⟨rfl, by simp⟩
  simp only [Nat.cast_zero, zero_mul, add_zero] at hd
  exact ⟨⟨title, data⟩, by simp only [benchmark, hd, Option.map_some'], rfl, hI.1, hI.2⟩

/-! ## Lemmas on the table writer -/

theorem length_fill_string (n : Nat) (ch : Char) : (fill_string n ch).length = n := by
  simp [fill_string, String.length]

theorem length_setw_left (w : Nat) (s : String) (h : s.length ≤ w) :
    (setw_left w s).length = w := by
  simp only [setw_left, String.length_append, length_fill_string]
  omega

theorem length_concat_const (k : Nat) (l : List String) (h : ∀ s ∈ l, s.length = k) :
    (concat l).length = l.length * k := by
  induction l with
  | nil => simp [concat]
  | cons a rest ih =>
    simp only [concat, String.length_append, List.length_cons]
    rw [ih (fun s hs => h s (List.mem_cons_of_mem _ hs)), h a (List.mem_cons_self _ _)]
    ring

theorem length_toString_digit (j : Nat) (h : j ≤ 9) : (toString j).length = 1 := by
  interval_cases j <;> rfl

theorem length_exp_header (cfg : Config) (hmax : cfg.max_size_exp ≤ 9) :
    (concat ((List.range' cfg.min_size_exp (cfg.max_size_exp + 1 - cfg.min_size_exp)).map
      (fun j => "1.E" ++ toString j ++ " "))).length = data_column_width cfg := by
  rw [length_concat_const 5]
  · simp [data_column_width]
  · intro s hs
    obtain ⟨j, hj, rfl⟩ := List.mem_map.1 hs
    have hj' := List.mem_range'_1.1 hj
    have hd := length_toString_digit j (by omega)
    simp only [String.length_append, hd]
    rfl

theorem length_cells (cfg : Config) (cells : List String)
    (hlen : cells.length = cfg.max_size_exp + 1 - cfg.min_size_exp)
    (h4 : ∀ x ∈ cells, x.length = 4) :
    (concat (cells.map (fun x => x ++ " "))).length = data_column_width cfg := by
  rw [length_concat_const 5]
  · simp [data_column_width, hlen]
  · intro s hs
    obtain ⟨x, hx, rfl⟩ := List.mem_map.1 hs
    simp only [String.length_append, h4 x hx]
    rfl

theorem separators_of_blocks (w : Nat) (blocks : List String) (rest : List Char)
    (hlen : ∀ b ∈ blocks, b.length = w) (hhead : ∀ b ∈ blocks, b.data[0]? = some '|')
    (hrest : rest[0]? = some '|') (k : Nat) (hk : k ≤ blocks.length) :
    ((concat blocks).data ++ rest)[k * w]? = some '|' := by
  induction blocks generalizing k with
  | nil =>
    have hk0 : k = 0 := by simpa using hk
    subst hk0
    simpa [concat] using hrest
  | cons b bs ih =>
    have hb : b.data.length = w := hlen b (List.mem_cons_self _ _)
    have hh := hhead b (List.mem_cons_self _ _)
    simp only [concat, String.data_append, List.append_assoc]
    cases k with
    | zero =>
      have hpos : 0 < b.data.length := by
        by_contra hnot
        rw [List.getElem?_eq_none (by omega)] at hh
        cases hh
      rw [Nat.zero_mul, List.getElem?_append_left hpos]
      exact hh
    | succ k =>
      have hidx : (k + 1) * w = b.data.length + k * w := by rw [hb]; ring
      rw [hidx, List.getElem?_append_right (by omega), Nat.add_sub_cancel_left]
      exact ih (fun x hx => hlen x (List.mem_cons_of_mem _ hx))
        (fun x hx => hhead x (List.mem_cons_of_mem _ hx)) k
        (by simpa using hk)

theorem separators_of_line (cfg : Config) (pre : String) (blocks : List String)
    (hpre : pre.length = first_column_width + 2)
    (hlen : ∀ b ∈ blocks, b.length = data_column_width cfg + 2)
    (hhead : ∀ b ∈ blocks, b.data[0]? = some '|') :
    separators_aligned cfg blocks.length (pre ++ concat blocks ++ "|") := by
  intro k hk
  have hp : pre.data.length = first_column_width + 2 := hpre
  simp only [separator_column, String.data_append, List.append_assoc]
  rw [List.getElem?_append_right (by omega), hp, Nat.add_sub_cancel_left]
  exact separators_of_blocks _ blocks _ hlen hhead rfl k hk

theorem head_of_block (s : String) : ("| " ++ s).data[0]? = some '|' := by
  simp only [String.data_append]
  rfl

theorem write_table_cells_some (cfg : Config) (t : List benchmark_result) (row : Nat)
    (hrows : ∀ res ∈ t, row < res.data.length)
    (hcells : ∀ res ∈ t, ∀ cells ∈ res.data,
      cells.length = cfg.max_size_exp + 1 - cfg.min_size_exp ∧ ∀ x ∈ cells, x.length = 4) :
    ∃ s, write_table_cells t row = some s ∧
      s.length = t.length * (data_column_width cfg + 2) ∧
      ∀ rest : List Char, rest[0]? = some '|' → ∀ k, k ≤ t.length →
        (s.data ++ rest)[k * (data_column_width cfg + 2)]? = some '|' := by
  induction t with
  | nil =>
    refine ⟨"", rfl, by simp, ?_⟩
    intro rest hrest k hk
    have hk0 : k = 0 := by simpa using hk
    subst hk0
    simpa using hrest
  | cons res rest ih =>
    obtain ⟨s, hs, hl, hsep⟩ := ih (fun r hr => hrows r (List.mem_cons_of_mem _ hr))
      (fun r hr => hcells r (List.mem_cons_of_mem _ hr))
    have hlt := hrows res (List.mem_cons_self _ _)
    have hget : res.data[row]? = some res.data[row] := List.getElem?_eq_getElem hlt
    have hc := hcells res (List.mem_cons_self _ _) res.data[row] (List.getElem_mem hlt)
    have h2 : "| ".length = 2 := rfl
    have hblock : ("| " ++ concat (res.data[row].map (fun x => x ++ " "))).data.length =
        data_column_width cfg + 2 := by
      have : ("| " ++ concat (res.data[row].map (fun x => x ++ " "))).length =
          data_column_width cfg + 2 := by
        rw [String.length_append, length_cells cfg _ hc.1 hc.2, h2]; omega
      exact this
    refine ⟨_, by simp only [write_table_cells, hget, hs, Option.map_some']; rfl, ?_, ?_⟩
    · simp only [String.length_append, length_cells cfg _ hc.1 hc.2, hl, List.length_cons]
      rw [h2]
      ring
    · intro tail htail k hk
      rw [String.data_append, List.append_assoc]
      cases k with
      | zero =>
        rw [Nat.zero_mul, List.getElem?_append_left (by omega)]
        exact head_of_block _
      | succ k =>
        have hidx : (k + 1) * (data_column_width cfg + 2) =
            ("| " ++ concat (res.data[row].map (fun x => x ++ " "))).data.length +
              k * (data_column_width cfg + 2) := by rw [hblock]; ring
        rw [hidx, List.getElem?_append_right (by omega), Nat.add_sub_cancel_left]
        exact hsep tail htail k (by simpa using hk)

theorem length_data_horizontal_line (cfg : Config) (k : Nat) :
    (data_horizontal_line cfg k).length = table_width cfg k := by
  simp only [data_horizontal_line, String.length_append, length_fill_string, table_width,
    first_column_width]
  omega

theorem length_table_horizontal_line (cfg : Config) (k : Nat) :
    (table_horizontal_line cfg k).length = table_width cfg k := by
  simp only [table_horizontal_line, length_fill_string]

theorem write_table_head_aligned (cfg : Config) (t : List benchmark_result)
    (hmax : cfg.max_size_exp ≤ 9)
    (hcs : "container size".length ≤ data_column_width cfg)
    (hsz : ("| sizeof(element): " ++ toString cfg.ELEMENT_SIZE).length ≤
      table_width cfg t.length - first_column_width - 3)
    (htitle : ∀ res ∈ t, res.title.length ≤ data_column_width cfg) :
    ∀ l ∈ write_table_head cfg t, l.length = table_width cfg t.length := by
  have h2 : "  ".length = 2 := rfl
  have h2b : "| ".length = 2 := rfl
  have h1 : "|".length = 1 := rfl
  have hsp : (setw_left first_column_width " ").length = first_column_width :=
    length_setw_left _ _ (by decide)
  have her : (setw_left first_column_width "erase rate").length = first_column_width :=
    length_setw_left _ _ (by decide)
  intro l hl
  simp only [write_table_head, List.mem_cons, List.mem_singleton, List.not_mem_nil, or_false] at hl
  rcases hl with rfl | rfl | rfl | rfl | rfl | rfl | rfl | rfl | rfl
  · exact length_data_horizontal_line cfg _
  · simp only [String.length_append, h2, h1, hsp, length_setw_left _ _ hsz]
    simp only [table_width, first_column_width]
    omega
  · exact length_data_horizontal_line cfg _
  · rw [String.length_append, String.length_append, String.length_append, h2, h1, hsp,
      length_concat_const (data_column_width cfg + 2)]
    · simp only [table_width, first_column_width, List.length_map]
    · intro s hs
      obtain ⟨res, hres, rfl⟩ := List.mem_map.1 hs
      rw [String.length_append, h2b, length_setw_left _ _ (htitle res hres)]
      omega
  · exact length_data_horizontal_line cfg _
  · rw [String.length_append, String.length_append, String.length_append, h2, h1, hsp,
      length_concat_const (data_column_width cfg + 2)]
    · simp only [table_width, first_column_width, List.length_replicate]
    · intro s hs
      rw [List.eq_of_mem_replicate hs, String.length_append, h2b, length_setw_left _ _ hcs]
      omega
  · exact length_table_horizontal_line cfg _
  · rw [String.length_append, String.length_append, String.length_append, h2b, h1, her,
      length_concat_const (data_column_width cfg + 2)]
    · simp only [table_width, first_column_width, List.length_replicate]
    · intro s hs
      rw [List.eq_of_mem_replicate hs, String.length_append, h2b, length_exp_header cfg hmax]
      omega
  · exact length_table_horizontal_line cfg _

theorem write_table_head_separators (cfg : Config) (t : List benchmark_result)
    (hmax : cfg.max_size_exp ≤ 9)
    (hcs : "container size".length ≤ data_column_width cfg)
    (htitle : ∀ res ∈ t, res.title.length ≤ data_column_width cfg)
    (i : Nat) (l : String) (hl : (write_table_head cfg t)[i]? = some l)
    (hi : i = 3 ∨ i = 5 ∨ i = 7 ∨ 9 ≤ i) :
    separators_aligned cfg t.length l := by
  have h2b : "| ".length = 2 := rfl
  have hsp : ("  " ++ setw_left first_column_width " ").length = first_column_width + 2 := by
    rw [String.length_append, length_setw_left _ _ (by decide)]
    decide
  have her : ("| " ++ setw_left first_column_width "erase rate").length =
      first_column_width + 2 := by
    rw [String.length_append, length_setw_left _ _ (by decide)]
    decide
  rcases hi with rfl | rfl | rfl | hge
  · simp only [write_table_head, List.getElem?_cons_succ, List.getElem?_cons_zero,
      Option.some.injEq] at hl
    subst hl
    have := separators_of_line cfg ("  " ++ setw_left first_column_width " ")
      (t.map (fun res => "| " ++ setw_left (data_column_width cfg) res.title)) hsp
      (by
        intro s hs
        obtain ⟨res, hres, rfl⟩ := List.mem_map.1 hs
        rw [String.length_append, h2b, length_setw_left _ _ (htitle res hres)]
        omega)
      (by
        intro s hs
        obtain ⟨res, _, rfl⟩ := List.mem_map.1 hs
        exact head_of_block _)
    rwa [List.length_map] at this
  · simp only [write_table_head, List.getElem?_cons_succ, List.getElem?_cons_zero,
      Option.some.injEq] at hl
    subst hl
    have := separators_of_line cfg ("  " ++ setw_left first_column_width " ")
      (List.replicate t.length ("| " ++ setw_left (data_column_width cfg) "container size"))
      hsp
      (by
        intro s hs
        rw [List.eq_of_mem_replicate hs, String.length_append, h2b, length_setw_left _ _ hcs]
        omega)
      (by
        intro s hs
        rw [List.eq_of_mem_replicate hs]
        exact head_of_block _)
    rwa [List.length_replicate] at this
  · simp only [write_table_head, List.getElem?_cons_succ, List.getElem?_cons_zero,
      Option.some.injEq] at hl
    subst hl
    have := separators_of_line cfg ("| " ++ setw_left first_column_width "erase rate")
      (List.replicate t.length ("| " ++ concat ((List.range' cfg.min_size_exp
        (cfg.max_size_exp + 1 - cfg.min_size_exp)).map (fun j => "1.E" ++ toString j ++ " "))))
      her
      (by
        intro s hs
        rw [List.eq_of_mem_replicate hs, String.length_append, h2b, length_exp_header cfg hmax]
        omega)
      (by
        intro s hs
        rw [List.eq_of_mem_replicate hs]
        exact head_of_block _)
    rwa [List.length_replicate] at this
  · have hlen : (write_table_head cfg t).length = 9 := by simp [write_table_head]
    rw [List.getElem?_eq_none (by omega)] at hl
    cases hl

theorem show_tenths_length (r : ℚ) : (show_tenths r).length ≤ 3 := by
  have h : (toString (⌊r * 10⌋.toNat % 10)).length = 1 :=
    length_toString_digit _ (by omega)
  unfold show_tenths
  split
  · decide
  · simp only [String.length_append, h]
    decide

theorem num_rate_steps_default (a b : Nat) : num_rate_steps (default_config a b) = 10 := by
  norm_num [num_rate_steps, default_config]

/-! ## The claims -/

/-- C1, the code at a failing input.  With the default grid and
`sizeof(element) = 1024` the cell of size exponent 7 has
`n * sizeof(element) > size_limit`; `benchmark` returns ten rows of four
entries each, so no row has an entry at column `7 - min_size_exp = 4`, where
the placeholder was to stand. -/
theorem benchmark_skipped_cell_absent (cell_text : ℚ → Nat → String) :
    size_limit (default_config 1024 1024) <
      to_size_t (default_config 1024 1024)
        (to_size_t (default_config 1024 1024) (10 ^ 7) *
          (default_config 1024 1024).sizeof_element) ∧
    ∃ res, benchmark (default_config 1024 1024) "sort" cell_text 10 = some res ∧
      res.data.length = 10 ∧
      ∀ row ∈ res.data, row.length = 4 ∧
        row[7 - (default_config 1024 1024).min_size_exp]? = none := by
  refine ⟨by decide, ?_⟩
  obtain ⟨res, h1, -, h3, h4⟩ := benchmark_grid (default_config 1024 1024)
    (by norm_num [default_config]) "sort" cell_text 10
    (by rw [num_rate_steps_default])
  refine ⟨res, h1, by rw [h3, num_rate_steps_default], ?_⟩
  intro row hrow
  have hlen : row.length = 4 := by
    rw [h4 row hrow]
    decide
  refine ⟨hlen, ?_⟩
  apply List.getElem?_eq_none
  rw [hlen]
  decide

/-- C2, the code at a failing input.  With the default grid and
`sizeof(element) = 256` the grid has ten rows, one per erasure-rate step, but
every row has four entries, not `max_size_exp - min_size_exp + 1 = 5`: the
cell of size exponent 7 is over `size_limit` and adds no entry. -/
theorem benchmark_row_short (cell_text : ℚ → Nat → String) :
    num_rate_steps (default_config 256 256) = 10 ∧
    ∃ res, benchmark (default_config 256 256) "for_each" cell_text 10 = some res ∧
      res.data.length = num_rate_steps (default_config 256 256) ∧
      ∀ row ∈ res.data, row.length = 4 ∧
        row.length ≠ (default_config 256 256).max_size_exp -
          (default_config 256 256).min_size_exp + 1 := by
  obtain ⟨res, h1, -, h3, h4⟩ := benchmark_grid (default_config 256 256)
    (by norm_num [default_config]) "for_each" cell_text 10
    (by rw [num_rate_steps_default])
  refine ⟨num_rate_steps_default 256 256, res, h1, h3, ?_⟩
  intro row hrow
  have hlen : row.length = 4 := by
    rw [h4 row hrow]
    decide
  refine ⟨hlen, ?_⟩
  rw [hlen]
  decide

/-- C3.  For a container that keeps its contract and a shuffle that permutes
the positions, `make(n, erasure_rate)` returns a container of at most `n`
elements: its size is `n` minus the number of draws below `erasure_cut` taken
after the shuffle, one draw per shuffled iterator; the positions erased are
pairwise different and as many as those draws. -/
theorem make_size_le {C H S : Type} (ops : Container C H) (valid : C → H → Prop)
    (hlaw : Lawful ops valid) (rng : urbg S) (shuffle : Nat → S → List Nat × S)
    (hsh : ∀ n s, (shuffle n s).1.Perm (List.range n)) (n : Nat) (erasure_rate : ℚ) :
    ops.size (make ops rng shuffle n erasure_rate) ≤ n ∧
    ops.size (make ops rng shuffle n erasure_rate) =
      n - erased_count rng shuffle n (erasure_cut erasure_rate) ∧
    erased_count rng shuffle n (erasure_cut erasure_rate) ≤ n ∧
    (make_traced ops rng shuffle n erasure_rate).2.erased.Nodup ∧
    (make_traced ops rng shuffle n erasure_rate).2.erased.length =
      erased_count rng shuffle n (erasure_cut erasure_rate) := by
  have hsz := make_size_eq ops rng valid hlaw shuffle hsh n erasure_rate
  have hperm := hsh n (advance rng n rng.default_seed)
  refine ⟨by omega, by omega, by omega, ?_, ?_⟩
  · rw [make_traced_eq]
    refine List.Nodup.sublist (erase_positions_sublist rng _ _ _) ?_
    rw [filter_lt_of_perm_range _ _ hperm]
    exact hperm.nodup_iff.2 (List.nodup_range n)
  · rw [make_traced_eq]
    simp only [erase_positions_length, filter_lt_of_perm_range _ _ hperm, hperm.length_eq,
      List.length_range, erased_count]

/-- Witness of C3 on the slot container with six insertions and rate one half. -/
theorem make_size_le_witness :
    Lawful slots slot_valid ∧
    slots.size (make slots lcg reverse_shuffle 6 (1 / 2)) ≤ 6 :=
  ⟨slots_lawful,
   (make_size_le slots slot_valid slots_lawful lcg reverse_shuffle reverse_shuffle_perm 6
     (1 / 2)).1⟩

/-- C4.  For a container whose `insert` raises `size()` by one, `fill(c, n)`
never lowers `c.size()`, leaves `c.size() = max(size before, n)`, and returns
`c` unchanged when the size before is already at least `n`. -/
theorem fill_size_max {C H S : Type} (ops : Container C H) (rng : urbg S)
    (hins : ∀ c k, ops.size (ops.insert c k).1 = ops.size c + 1) (c : C) (n : Nat) :
    ops.size c ≤ ops.size (fill ops rng c n) ∧
    ops.size (fill ops rng c n) = max (ops.size c) n ∧
    (n ≤ ops.size c → fill ops rng c n = c) := by
  have h := fill_size ops rng hins c n
  refine ⟨by omega, h, ?_⟩
  intro hle
  simp [fill, Nat.not_lt.2 hle]

/-- Witness of C4: a slot container of two elements filled up to five. -/
theorem fill_size_max_witness :
    slots.size (fill slots lcg [some 7, none, some 9] 5) = max 2 5 :=
  (fill_size_max slots lcg slots_lawful.size_insert [some 7, none, some 9] 5).2.1

/-- C5.  The keys `make` inserts and the insertion positions it erases are the
same for any two container implementations: they are the first `n` generator
values converted to `int`, and the shuffled positions whose draw is below
`erasure_cut`, all computed from a default-seeded generator, `n` and
`erasure_rate` alone. -/
theorem make_workload_deterministic {C1 H1 C2 H2 S : Type} (ops1 : Container C1 H1)
    (ops2 : Container C2 H2) (rng : urbg S) (shuffle : Nat → S → List Nat × S)
    (n : Nat) (erasure_rate : ℚ) :
    (make_traced ops1 rng shuffle n erasure_rate).2 =
      (make_traced ops2 rng shuffle n erasure_rate).2 ∧
    (make_traced ops1 rng shuffle n erasure_rate).2.keys =
      (draws rng n rng.default_seed).map to_int ∧
    (make_traced ops1 rng shuffle n erasure_rate).2.erased =
      erase_positions rng (erasure_cut erasure_rate)
        ((shuffle n (advance rng n rng.default_seed)).1.filter (fun p => p < n))
        (shuffle n (advance rng n rng.default_seed)).2 := by
  refine ⟨?_, ?_, ?_⟩
  · rw [make_traced_eq, make_traced_eq]
  · rw [make_traced_eq]
  · rw [make_traced_eq]

/-- C6.  For an array of `num_trials = 10` per-trial averages, `measure`
returns the sum of the six elements at positions 2 to 7 of the ascending
arrangement divided by six; when two samples are at most, and two at least, the
other six, the value is the mean of those six whatever the four are; and the
value is the same for every order of the samples. -/
theorem measure_trimmed_mean (trials : List ℚ) (hlen : trials.length = num_trials) :
    (∀ s : List ℚ, s.Sorted (· ≤ ·) → s.Perm trials →
      measure trials =
        ((s.drop 2).take (num_trials - 4)).sum / ((num_trials - 4 : Nat) : ℚ)) ∧
    (∀ lows mid highs : List ℚ, lows.length = 2 → mid.length = 6 → highs.length = 2 →
      trials.Perm (lows ++ mid ++ highs) →
      (∀ a ∈ lows, ∀ b ∈ mid, a ≤ b) → (∀ b ∈ mid, ∀ c ∈ highs, b ≤ c) →
      measure trials = mid.sum / 6) ∧
    (∀ other : List ℚ, other.Perm trials → measure other = measure trials) := by
  refine ⟨?_, ?_, ?_⟩
  · intro s hs hp
    rw [measure_eq trials hlen, sorted_unique s trials hs hp]
    norm_num [num_trials]
  · intro lows mid highs hl hm hh hp h1 h2
    exact measure_blocks trials lows mid highs hl hm hh hp h1 h2
  · intro other hp
    have hlen1 : other.length = num_trials := by rw [hp.length_eq, hlen]
    rw [measure_eq trials hlen, measure_eq other hlen1]
    rw [sorted_unique (trials.insertionSort (· ≤ ·)) other (List.sorted_insertionSort _ _)
      ((List.perm_insertionSort _ _).trans hp.symm)]

set_option maxRecDepth 8000 in
/-- Witness of C6: ten samples with outliers 0, 1, 1000 and 2000. -/
theorem measure_trimmed_mean_witness :
    [5, 1000, 3, 4, 0, 6, 7, 2000, 8, 1].length = num_trials ∧
    measure [5, 1000, 3, 4, 0, 6, 7, 2000, 8, 1] = [3, 4, 5, 6, 7, 8].sum / 6 :=
  ⟨rfl, (measure_trimmed_mean [5, 1000, 3, 4, 0, 6, 7, 2000, 8, 1] rfl).2.1
    [0, 1] [3, 4, 5, 6, 7, 8] [1000, 2000] rfl rfl rfl (by with_unfolding_all decide)
    (by with_unfolding_all decide) (by with_unfolding_all decide)⟩

/-- C7.  In a trial started at `t0`, after `pause_timing()` at `tp` and
`resume_timing()` at `tr`, the elapsed time measured at any reading `t2` is
`(t2 - t0) - (tr - tp)`; the elapsed time read at the resume equals the one
read at the pause; `resume_timing` leaves `measure_pause` and `pause_timing`
leaves `measure_start` as they are. -/
theorem timer_pause_resume (st : TimerState) (t0 tp tr t2 : Int) :
    trial_elapsed t2 (resume_timing tr (pause_timing tp (start_trial t0 st))) =
      (t2 - t0) - (tr - tp) ∧
    trial_elapsed t2 (resume_timing tr (pause_timing tp st)) =
      trial_elapsed t2 st - (tr - tp) ∧
    trial_elapsed tr (resume_timing tr (pause_timing tp st)) = trial_elapsed tp st ∧
    (resume_timing tr st).measure_pause = st.measure_pause ∧
    (pause_timing tp st).measure_start = st.measure_start ∧
    (pause_timing tp st).measure_pause = tp := by
  refine ⟨?_, ?_, ?_, rfl, rfl, rfl⟩ <;>
    simp only [trial_elapsed, resume_timing, pause_timing, start_trial] <;> ring

/-- C8, counterexample.  A table made by `benchmark` under the default grid
with a title of 30 characters: `write_table` writes twenty lines, the title
line has 50 characters and `table_width` is 45. -/
theorem write_table_long_title_misaligned :
    ((benchmark (default_config 64 64) "insert, erase, insert, destroy"
        (fun _ _ => "1.00") 10).bind
      (fun res => write_table (default_config 64 64) show_tenths [res] 10)).map
      (fun lines => lines.map String.length) =
    some [45, 45, 45, 50, 45, 45, 45, 45, 45, 45, 45, 45, 45, 45, 45, 45, 45, 45, 45, 45] ∧
    table_width (default_config 64 64) 1 = 45 := by
  constructor
  · with_unfolding_all decide
  · decide

/-- C8, amended.  When the size exponents are single digits, every title and
the text `container size` fit in `data_column_width`, the element-size caption
fits in its field, every erasure rate is printed in at most
`first_column_width` characters, and every result has a row for each
erasure-rate step, each row holding `max_size_exp + 1 - min_size_exp` entries
of four characters, then `write_table` writes its lines, every line has
exactly `table_width` characters, and on the title line, the `container size`
line, the size-exponent header line and every data row the character `|`
stands in the same columns: in front of each block, at column
`first_column_width + 2 + k * (data_column_width + 2)`, and at the end. -/
theorem write_table_aligned (cfg : Config) (show_rate : ℚ → String)
    (t : List benchmark_result)
    (hmax : cfg.max_size_exp ≤ 9)
    (hinc : 0 < cfg.erase_rate_inc)
    (hcs : "container size".length ≤ data_column_width cfg)
    (hsz : ("| sizeof(element): " ++ toString cfg.ELEMENT_SIZE).length ≤
      table_width cfg t.length - first_column_width - 3)
    (htitle : ∀ res ∈ t, res.title.length ≤ data_column_width cfg)
    (hrate : ∀ r, (show_rate r).length ≤ first_column_width)
    (hrows : ∀ res ∈ t, num_rate_steps cfg ≤ res.data.length)
    (hcells : ∀ res ∈ t, ∀ cells ∈ res.data,
      cells.length = cfg.max_size_exp + 1 - cfg.min_size_exp ∧ ∀ x ∈ cells, x.length = 4)
    (fuel : Nat) (hfuel : num_rate_steps cfg ≤ fuel) :
    ∃ lines, write_table cfg show_rate t fuel = some lines ∧
      lines.length = 10 + num_rate_steps cfg ∧
      (∀ l ∈ lines, l.length = table_width cfg t.length) ∧
      (∀ i l, is_block_line cfg i → lines[i]? = some l →
        separators_aligned cfg t.length l) ∧
      (∀ k, k ≤ t.length → separator_column cfg k < table_width cfg t.length) := by
  have hhead := write_table_head_aligned cfg t hmax hcs hsz htitle
  have hheadsep := write_table_head_separators cfg t hmax hcs htitle
  have h2b : "| ".length = 2 := rfl
  have h1b : "|".length = 1 := rfl
  obtain ⟨st, hst, hI⟩ := for_erasure_rates_inv cfg hinc (write_table_row show_rate t)
    (fun j st => st.1 = j ∧ st.2.length = 9 + j ∧
      (∀ l ∈ st.2, l.length = table_width cfg t.length) ∧
      (∀ i l, st.2[i]? = some l → (i = 3 ∨ i = 5 ∨ i = 7 ∨ 9 ≤ i) →
        separators_aligned cfg t.length l))
    (by
      intro j st hj ⟨h1, h2, h3, h4⟩
      obtain ⟨s, hs, hl, hsep⟩ := write_table_cells_some cfg t st.1
        (fun res hres => by have := hrows res hres; omega) hcells
      refine ⟨_, by simp only [write_table_row, hs, Option.map_some']; rfl, ?_, ?_, ?_, ?_⟩
      · simp [h1]
      · simp [h2]; omega
      · intro l hl2
        rcases List.mem_append.1 hl2 with hl2 | hl2
        · exact h3 l hl2
        · rw [List.mem_singleton.1 hl2]
          simp only [String.length_append, length_setw_left _ _ (hrate _), hl]
          rw [h2b, h1b]
          simp only [table_width, first_column_width]
      · intro i l hil hi
        dsimp only at hil
        by_cases hlt : i < st.2.length
        · rw [List.getElem?_append_left hlt] at hil
          exact h4 i l hil hi
        · have hile : i < (st.2 ++ ["| " ++ setw_left first_column_width
              (show_rate (cfg.min_erasure_rate + ↑j * cfg.erase_rate_inc)) ++ s ++ "|"]).length := by
            by_contra hnot
            rw [List.getElem?_eq_none (by omega)] at hil
            cases hil
          have hieq : i = st.2.length := by
            rw [List.length_append, List.length_singleton] at hile
            omega
          subst hieq
          rw [List.getElem?_append_right (Nat.le_refl _), Nat.sub_self,
            List.getElem?_cons_zero, Option.some.injEq] at hil
          subst hil
          intro k hk
          have hp : ("| " ++ setw_left first_column_width
              (show_rate (cfg.min_erasure_rate + ↑j * cfg.erase_rate_inc))).data.length =
              first_column_width + 2 := by
            have : ("| " ++ setw_left first_column_width
                (show_rate (cfg.min_erasure_rate + ↑j * cfg.erase_rate_inc))).length =
                first_column_width + 2 := by
              rw [String.length_append, length_setw_left _ _ (hrate _), h2b]; omega
            exact this
          rw [String.data_append, String.data_append, List.append_assoc]
          simp only [separator_column]
          rw [List.getElem?_append_right (by omega), hp, Nat.add_sub_cancel_left]
          exact hsep _ rfl k hk)
    fuel 0 (0, write_table_head cfg t) (Nat.zero_le _) (by omega)
    ⟨rfl, by simp [write_table_head], hhead, hheadsep⟩
  simp only [Nat.cast_zero, zero_mul, add_zero] at hst
  refine ⟨st.2 ++ [table_horizontal_line cfg t.length], ?_, ?_, ?_, ?_, ?_⟩
  · simp only [write_table, hst, Option.map_some']
  · simp [hI.2.1]; omega
  · intro l hl
    rcases List.mem_append.1 hl with hl | hl
    · exact hI.2.2.1 l hl
    · rw [List.mem_singleton.1 hl]; exact length_table_horizontal_line cfg _
  · intro i l hi hil
    have hlt : i < st.2.length := by
      rw [hI.2.1]
      rcases hi with h | h | h | h <;> omega
    rw [List.getElem?_append_left hlt] at hil
    refine hI.2.2.2 i l hil ?_
    rcases hi with h | h | h | h
    · exact Or.inl h
    · exact Or.inr (Or.inl h)
    · exact Or.inr (Or.inr (Or.inl h))
    · exact Or.inr (Or.inr (Or.inr h.1))
  · intro k hk
    simp only [separator_column, table_width]
    have : k * (data_column_width cfg + 2) ≤ t.length * (data_column_width cfg + 2) :=
      Nat.mul_le_mul_right _ hk
    omega

/-- Witness of C8 as amended: the five results of `main` under the default
grid with `ELEMENT_SIZE = 64`. -/
theorem write_table_aligned_witness :
    ∃ lines, write_table (default_config 64 64) show_tenths sample_table 10 = some lines ∧
      lines.length = 10 + num_rate_steps (default_config 64 64) ∧
      (∀ l ∈ lines, l.length = table_width (default_config 64 64) sample_table.length) ∧
      (∀ i l, is_block_line (default_config 64 64) i → lines[i]? = some l →
        separators_aligned (default_config 64 64) sample_table.length l) ∧
      (∀ k, k ≤ sample_table.length →
        separator_column (default_config 64 64) k <
          table_width (default_config 64 64) sample_table.length) :=
  write_table_aligned (default_config 64 64) show_tenths sample_table
    (by decide) (by norm_num [default_config]) (by decide) (by decide) (by decide)
    (fun r => le_trans (show_tenths_length r) (by decide))
    (by rw [num_rate_steps_default]; decide) (by decide) 10
    (by rw [num_rate_steps_default])

/-- C9.  For a container that keeps its contract, a shuffle that permutes the
positions and `n < 2 ^ 32`, both `create` and `create_and_destroy` return
exactly `n`, whatever the erasure rate. -/
theorem create_returns_n {C H S : Type} (ops : Container C H) (valid : C → H → Prop)
    (hlaw : Lawful ops valid) (rng : urbg S) (shuffle : Nat → S → List Nat × S)
    (hsh : ∀ n s, (shuffle n s).1.Perm (List.range n)) (n : Nat) (hn : n < 2 ^ 32)
    (erasure_rate : ℚ) (t_pause t_resume : Int) (timer : TimerState) :
    (create ops rng shuffle n erasure_rate t_pause t_resume timer).1 = n ∧
    create_and_destroy ops rng shuffle n erasure_rate = n := by
  have hsz := make_size_eq ops rng valid hlaw shuffle hsh n erasure_rate
  have hfill := fill_size ops rng hlaw.size_insert (make ops rng shuffle n erasure_rate) n
  have hmax : ops.size (fill ops rng (make ops rng shuffle n erasure_rate) n) = n := by
    rw [hfill]; omega
  constructor
  · simp only [create, hmax]
    exact Nat.mod_eq_of_lt hn
  · simp only [create_and_destroy, hmax]
    exact Nat.mod_eq_of_lt hn

/-- Witness of C9 on the slot container with `n = 6` and rate one half. -/
theorem create_returns_n_witness :
    (create slots lcg reverse_shuffle 6 (1 / 2) 100 250 ⟨0, 0⟩).1 = 6 ∧
    create_and_destroy slots lcg reverse_shuffle 6 (1 / 2) = 6 :=
  create_returns_n slots slot_valid slots_lawful lcg reverse_shuffle reverse_shuffle_perm 6
    (by decide) (1 / 2) 100 250 ⟨0, 0⟩

theorem get_container_step {C H S : Type} (ops : Container C H) (rng : urbg S)
    (shuffle : Nat → S → List Nat × S) (q : Request) (self : prepare C) (timer : TimerState)
    (hinv : self.c = make ops rng shuffle self.n self.erasure_rate) :
    (prepare.get_container ops rng shuffle q.n q.erasure_rate q.t_pause q.t_resume
        self timer).1 = make ops rng shuffle q.n q.erasure_rate ∧
    (prepare.get_container ops rng shuffle q.n q.erasure_rate q.t_pause q.t_resume
        self timer).2.1.c =
      make ops rng shuffle
        (prepare.get_container ops rng shuffle q.n q.erasure_rate q.t_pause q.t_resume
          self timer).2.1.n
        (prepare.get_container ops rng shuffle q.n q.erasure_rate q.t_pause q.t_resume
          self timer).2.1.erasure_rate := by
  unfold prepare.get_container
  by_cases hne : q.n ≠ self.n ∨ q.erasure_rate ≠ self.erasure_rate
  · simp only [hne, if_true, and_self]
  · simp only [hne, if_false]
    have h1 : q.n = self.n := by
      by_contra h; exact hne (Or.inl h)
    have h2 : q.erasure_rate = self.erasure_rate := by
      by_contra h; exact hne (Or.inr h)
    exact ⟨by rw [h1, h2]; exact hinv, hinv⟩

theorem get_container_calls_inv {C H S : Type} (ops : Container C H) (rng : urbg S)
    (shuffle : Nat → S → List Nat × S) (reqs : List Request) (self : prepare C)
    (timer : TimerState) (hinv : self.c = make ops rng shuffle self.n self.erasure_rate) :
    (get_container_calls ops rng shuffle reqs (self, timer)).1 =
      reqs.map (fun q => make ops rng shuffle q.n q.erasure_rate) ∧
    (get_container_calls ops rng shuffle reqs (self, timer)).2.1.c =
      make ops rng shuffle
        (get_container_calls ops rng shuffle reqs (self, timer)).2.1.n
        (get_container_calls ops rng shuffle reqs (self, timer)).2.1.erasure_rate := by
  induction reqs generalizing self timer with
  | nil => exact ⟨rfl, hinv⟩
  | cons q rest ih =>
    obtain ⟨h1, h2⟩ := get_container_step ops rng shuffle q self timer hinv
    obtain ⟨h3, h4⟩ := ih _ _ h2
    simp only [get_container_calls, List.map_cons]
    exact ⟨by rw [h1, h3], h4⟩

/-- C10.  Starting from the initial `prepare` object and after any sequence of
`get_container` calls, the cached container equals `make` of the stored pair
and every call has returned `make` of the pair it was asked for; a call with
the stored pair returns the cached container and changes neither the object
nor the timer, and a call with another pair stores that pair with a newly made
container and pauses and resumes the timer. -/
theorem prepare_cache_invariant {C H S : Type} (ops : Container C H) (rng : urbg S)
    (shuffle : Nat → S → List Nat × S) (reqs : List Request) (timer : TimerState) :
    (get_container_calls ops rng shuffle reqs (prepare.init ops, timer)).2.1.c =
      make ops rng shuffle
        (get_container_calls ops rng shuffle reqs (prepare.init ops, timer)).2.1.n
        (get_container_calls ops rng shuffle reqs (prepare.init ops, timer)).2.1.erasure_rate ∧
    (get_container_calls ops rng shuffle reqs (prepare.init ops, timer)).1 =
      reqs.map (fun q => make ops rng shuffle q.n q.erasure_rate) ∧
    (∀ (self : prepare C) (tm : TimerState) (q : Request),
      (q.n = self.n ∧ q.erasure_rate = self.erasure_rate →
        prepare.get_container ops rng shuffle q.n q.erasure_rate q.t_pause q.t_resume self tm =
          (self.c, self, tm)) ∧
      (¬ (q.n = self.n ∧ q.erasure_rate = self.erasure_rate) →
        prepare.get_container ops rng shuffle q.n q.erasure_rate q.t_pause q.t_resume self tm =
          (make ops rng shuffle q.n q.erasure_rate,
           ⟨q.n, q.erasure_rate, make ops rng shuffle q.n q.erasure_rate⟩,
           resume_timing q.t_resume (pause_timing q.t_pause tm)))) := by
  have hinit : (prepare.init ops).c =
      make ops rng shuffle (prepare.init ops).n (prepare.init ops).erasure_rate := by
    simp only [prepare.init, make_zero]
  obtain ⟨h1, h2⟩ := get_container_calls_inv ops rng shuffle reqs (prepare.init ops) timer hinit
  refine ⟨h2, h1, ?_⟩
  intro self tm q
  constructor
  · rintro ⟨e1, e2⟩
    simp [prepare.get_container, e1, e2]
  · intro hne
    have hor : q.n ≠ self.n ∨ q.erasure_rate ≠ self.erasure_rate := by
      by_contra h
      push_neg at h
      exact hne h
    simp only [prepare.get_container, hor, if_true]

end HubBenchmark
